import Mathlib

/-!
# Verification of the cluster-log retention structure (`src/src/common/LogEntry.h`)

Shallow embedding of the data model and operations of `LogEntry.h`:
`clog_type`, `LogEntryKey`, `LogEntry` and `LogSummary` with its `add`,
`prune`, `contains` and (spec-modelled) `build_ordered_tail`,
`str_to_level` and the encode/decode pair.

Machine integers are modelled as `Nat`/`Int`; the 64-bit hash arithmetic of
`LogEntryKey::_calc_hash` is taken modulo `2 ^ 64` since the sum of a full
range hash and a sequence number overflows routinely, while the monotonic
counters (`seq`, `version`) are modelled in their non-overflowing range.

The hash function `std::hash<entity_name_t>` lives in `msg/msg_types.h`
outside the analysed sources, so every definition that needs it takes it as
an explicit parameter `h : entity_name_t → Nat`.
-/

set_option autoImplicit false

/-- The severity enumeration `clog_type` of `LogEntry.h`. -/
inductive clog_type where
  | CLOG_DEBUG
  | CLOG_INFO
  | CLOG_SEC
  | CLOG_WARN
  | CLOG_ERROR
  | CLOG_UNKNOWN
deriving DecidableEq, Repr

/-- Numeric value of the C enum (`CLOG_DEBUG = 0`, ..., `CLOG_UNKNOWN = -1`). -/
def clog_type.val : clog_type → Int
  | .CLOG_DEBUG => 0
  | .CLOG_INFO => 1
  | .CLOG_SEC => 2
  | .CLOG_WARN => 3
  | .CLOG_ERROR => 4
  | .CLOG_UNKNOWN => -1

/-- Model of `entity_name_t` (from `msg/msg_types.h`): a type tag and a numeric id.
Only structural equality and hashing of it matter to `LogEntry.h`. -/
structure entity_name_t where
  type : Nat
  num : Int
deriving DecidableEq, Repr

/-- The default-constructed `entity_name_t` (type 0, num 0). -/
def entity_name_t.default : entity_name_t := ⟨0, 0⟩

/-- Model of `utime_t` (from `include/utime.h`): seconds and nanoseconds. -/
structure utime_t where
  sec : Nat
  nsec : Nat
deriving DecidableEq, Repr

/-- Model of `LogEntryKey`: the dedup identity. The C++ struct stores the three
identity fields together with a cached hash `_hash` (a `uint64_t` member
initialised to `0`). -/
structure LogEntryKey where
  _hash : Nat
  rank : entity_name_t
  stamp : utime_t
  seq : Nat
deriving DecidableEq, Repr

/-- Constructor `LogEntryKey()`: the default constructor runs no code, so `_hash`
keeps its member initialiser `0` and the fields are default-constructed. -/
def LogEntryKey.mkDefault : LogEntryKey :=
  ⟨0, entity_name_t.default, ⟨0, 0⟩, 0⟩

/-- Constructor `LogEntryKey(w, t, s)`: stores the fields and calls `_calc_hash`,
which sets `_hash = seq + h(rank)` in `uint64_t` arithmetic, where `h` is
`std::hash<entity_name_t>` (external, passed as a parameter). -/
def LogEntryKey.mk3 (h : entity_name_t → Nat) (w : entity_name_t) (t : utime_t)
    (s : Nat) : LogEntryKey :=
  ⟨(s + h w) % 2 ^ 64, w, t, s⟩

/-- Accessor `LogEntryKey::get_hash`: returns the cached `_hash` field. -/
def LogEntryKey.get_hash (k : LogEntryKey) : Nat := k._hash

/-- Comparison `operator==(LogEntryKey, LogEntryKey)`: structural equality of
`rank`, `stamp` and `seq` (the cached `_hash` is not compared). -/
def keyEq (l r : LogEntryKey) : Prop :=
  l.rank = r.rank ∧ l.stamp = r.stamp ∧ l.seq = r.seq

instance (l r : LogEntryKey) : Decidable (keyEq l r) := by
  unfold keyEq; infer_instance

/-- Boolean form of `operator==` on `LogEntryKey`. -/
def keyBeq (l r : LogEntryKey) : Bool := decide (keyEq l r)

/-- The ways a `LogEntryKey` can come into existence in the C++ code:
either default construction or the three-argument constructor. -/
inductive LogEntryKey.Constructed (h : entity_name_t → Nat) : LogEntryKey → Prop
  | default : LogEntryKey.Constructed h LogEntryKey.mkDefault
  | mk3 (w : entity_name_t) (t : utime_t) (s : Nat) :
      LogEntryKey.Constructed h (LogEntryKey.mk3 h w t s)

/-- Model of `LogEntry`: the full record. `EntityName` and the address vector are
opaque to this file's logic and are modelled as strings. -/
structure LogEntry where
  name : String
  rank : entity_name_t
  addrs : List String
  stamp : utime_t
  seq : Nat
  prio : clog_type
  msg : String
  channel : String
deriving DecidableEq, Repr

/-- Method `LogEntry::key()`: builds the identity from `rank`, `stamp`, `seq`
via the three-argument `LogEntryKey` constructor. -/
def LogEntry.key (h : entity_name_t → Nat) (e : LogEntry) : LogEntryKey :=
  LogEntryKey.mk3 h e.rank e.stamp e.seq

/-! ## The `ceph::unordered_set<LogEntryKey>` model

`std::unordered_set` semantics with `operator==` as the element equality:
`insert` is a no-op when an equal element is present, `erase` removes the
equal element, `count` tests membership. The set is modelled as the list of
its elements. -/

/-- Insertion, `unordered_set::insert`. -/
def ukInsert (ks : List LogEntryKey) (k : LogEntryKey) : List LogEntryKey :=
  if ks.any (fun x => keyBeq x k) then ks else k :: ks

/-- Erasure, `unordered_set::erase`. -/
def ukErase (ks : List LogEntryKey) (k : LogEntryKey) : List LogEntryKey :=
  ks.filter (fun x => !keyBeq x k)

/-- Membership test, `unordered_set::count` (as a Boolean). -/
def ukCount (ks : List LogEntryKey) (k : LogEntryKey) : Bool :=
  ks.any (fun x => keyBeq x k)

/-! ## `LogSummary` -/

/-- Model of `map<string, list<pair<uint64_t, LogEntry>>>`, as an
association list of channel name to the channel's (seq, entry) list. -/
abbrev ChannelMap := List (String × List (Nat × LogEntry))

/-- Operation `tail_by_channel[c].push_back(p)`: append `p` to channel `c`'s list,
default-constructing the channel's (empty) list when absent. -/
def addToChannel (m : ChannelMap) (c : String) (p : Nat × LogEntry) : ChannelMap :=
  match m with
  | [] => [(c, [p])]
  | ci :: rest =>
    if ci.1 = c then (ci.1, ci.2 ++ [p]) :: rest
    else ci :: addToChannel rest c p

/-- Model of `struct LogSummary`. -/
structure LogSummary where
  version : Nat
  tail_by_channel : ChannelMap
  seq : Nat
  keys : List LogEntryKey
deriving DecidableEq, Repr

/-- Constructor `LogSummary()`: `version = 0`, empty channels, `seq = 0`, empty keys. -/
def LogSummary.empty : LogSummary := ⟨0, [], 0, []⟩

/-- Method `LogSummary::add(e)`: `keys.insert(e.key())` then
`tail_by_channel[e.channel].push_back(make_pair(++seq, e))`. -/
def LogSummary.add (h : entity_name_t → Nat) (s : LogSummary) (e : LogEntry) :
    LogSummary :=
  { s with
    keys := ukInsert s.keys (e.key h)
    seq := s.seq + 1
    tail_by_channel := addToChannel s.tail_by_channel e.channel (s.seq + 1, e) }

/-- The per-channel loop of `LogSummary::prune`: while the list is longer
than `mx`, erase the front entry's key from the key set and pop the front. -/
def pruneLoop (h : entity_name_t → Nat) (mx : Nat) :
    List (Nat × LogEntry) → List LogEntryKey →
      List (Nat × LogEntry) × List LogEntryKey
  | [], ks => ([], ks)
  | p :: t, ks =>
    if t.length + 1 > mx then pruneLoop h mx t (ukErase ks (p.2.key h))
    else (p :: t, ks)

/-- Method `LogSummary::prune(max)`: run the while-loop on every channel in map
order, threading the shared key set through. -/
def LogSummary.prune (h : entity_name_t → Nat) (s : LogSummary) (mx : Nat) :
    LogSummary :=
  let r := s.tail_by_channel.foldl
    (fun acc ci =>
      let pr := pruneLoop h mx ci.2 acc.2
      (acc.1 ++ [(ci.1, pr.1)], pr.2))
    ([], s.keys)
  { s with tail_by_channel := r.1, keys := r.2 }

/-- Method `LogSummary::contains(k)`: `keys.count(k)`. -/
def LogSummary.contains (s : LogSummary) (k : LogEntryKey) : Bool :=
  ukCount s.keys k

/-! ## Reachability -/

/-- Mutating operations of `LogSummary`. -/
inductive Op where
  | add (e : LogEntry)
  | prune (mx : Nat)

/-- One mutating step. -/
def LogSummary.step (h : entity_name_t → Nat) (s : LogSummary) : Op → LogSummary
  | .add e => s.add h e
  | .prune mx => s.prune h mx

/-- A whole operation sequence, first operation first. -/
def LogSummary.run (h : entity_name_t → Nat) (s : LogSummary) :
    List Op → LogSummary
  | [] => s
  | o :: os => (s.step h o).run h os

/-- States reachable from the empty summary by `add` and `prune`. -/
inductive LogSummary.Reachable (h : entity_name_t → Nat) : LogSummary → Prop
  | empty : LogSummary.Reachable h LogSummary.empty
  | add {s : LogSummary} (e : LogEntry) :
      LogSummary.Reachable h s → LogSummary.Reachable h (s.add h e)
  | prune {s : LogSummary} (mx : Nat) :
      LogSummary.Reachable h s → LogSummary.Reachable h (s.prune h mx)

/-! ## Derived views used by the claims -/

/-- All retained (assigned-seq, record) pairs, channel-major. -/
def LogSummary.entryPairs (s : LogSummary) : List (Nat × LogEntry) :=
  (s.tail_by_channel.map (fun ci => ci.2)).flatten

/-- Whether some retained record has identity `k` (under `operator==`). -/
def LogSummary.retains (h : entity_name_t → Nat) (s : LogSummary)
    (k : LogEntryKey) : Bool :=
  s.entryPairs.any (fun p => keyBeq (p.2.key h) k)

/-- Invariant 3 of the spec: the dedup index `keys` answers membership
exactly as the set of identities of all retained records. -/
def LogSummary.KeysExact (h : entity_name_t → Nat) (s : LogSummary) : Prop :=
  ∀ k : LogEntryKey, ukCount s.keys k = s.retains h k

/-- All (assigned-seq, record) pairs removed by `prune(mx)`, channel-major. -/
def droppedPairs (mx : Nat) (m : ChannelMap) : List (Nat × LogEntry) :=
  (m.map (fun ci => ci.2.take (ci.2.length - mx))).flatten

/-- Structural invariant of a summary: every channel's stored list is
strictly increasing in assigned seq, and every stored seq is at most the
global counter. -/
def LogSummary.Inv (s : LogSummary) : Prop :=
  ∀ ci ∈ s.tail_by_channel,
    ci.2.Chain' (fun a b => a.1 < b.1) ∧ ∀ p ∈ ci.2, p.1 ≤ s.seq

/-- The dedup index never stores two `operator==`-equal keys. -/
def keysNodup (ks : List LogEntryKey) : Prop :=
  ks.Pairwise (fun a b => ¬ keyEq a b)

/-- No two retained records (anywhere, in any channels) share an identity. -/
def LogSummary.DistinctKeys (h : entity_name_t → Nat) (s : LogSummary) : Prop :=
  s.entryPairs.Pairwise (fun p q => ¬ keyEq (p.2.key h) (q.2.key h))

/-! ## The globally ordered merge view (spec §4.6) -/

/-- Comparison of stored pairs by assigned seq. -/
def seqLe (a b : Nat × LogEntry) : Prop := a.1 ≤ b.1

instance : DecidableRel seqLe := fun a b => Nat.decLe a.1 b.1

instance : IsTotal (Nat × LogEntry) seqLe := ⟨fun a b => Nat.le_total a.1 b.1⟩

instance : IsTrans (Nat × LogEntry) seqLe := ⟨fun _ _ _ => Nat.le_trans⟩

/-- Modelled from the spec: `LogSummary::build_ordered_tail` is declared at
line 129 of `src/src/common/LogEntry.h` but defined in `common/LogEntry.cc`,
which is not among the analysed sources. Spec §4.6: all retained pairs of
all channels, merged into one sequence ordered by ascending assigned seq.
This is the sorted pair list the record view reads off. -/
def LogSummary.orderedPairs (s : LogSummary) : List (Nat × LogEntry) :=
  List.insertionSort seqLe s.entryPairs

/-- Modelled from the spec (see `LogSummary.orderedPairs`): the merged,
seq-ordered list of retained records returned by `build_ordered_tail`. -/
def LogSummary.build_ordered_tail (s : LogSummary) : List LogEntry :=
  s.orderedPairs.map (fun p => p.2)

/-! ## Severity parsing (spec §4.2) -/

/-- Modelled from the spec: the fixed severity name table behind
`LogEntry::str_to_level` / `string_to_clog_type`, whose definitions live in
`common/LogEntry.cc`, not among the analysed sources. Spec §3 fixes the
severity enumeration DEBUG, INFO, SECURITY, WARN, ERROR; UNKNOWN is the
sentinel and never a table entry. -/
def severity_table : List (String × clog_type) :=
  [("debug", .CLOG_DEBUG), ("info", .CLOG_INFO), ("security", .CLOG_SEC),
   ("warn", .CLOG_WARN), ("error", .CLOG_ERROR)]

/-- ASCII lower-casing of one character (`std::tolower` on the inputs the
table can match). -/
def lowerChar (c : Char) : Char :=
  if 65 ≤ c.toNat ∧ c.toNat ≤ 90 then Char.ofNat (c.toNat + 32) else c

/-- Lower-casing of a whole string, as its character list. -/
def lowerStr (s : String) : List Char := s.data.map lowerChar

/-- Modelled from the spec: `LogEntry::str_to_level` (declared at line 116,
defined in `common/LogEntry.cc`): case-insensitive match of the input
against the severity name table, `CLOG_UNKNOWN` when no entry matches. -/
def LogEntry.str_to_level (str : String) : clog_type :=
  match severity_table.find? (fun p => p.1.data == lowerStr str) with
  | some p => p.2
  | none => .CLOG_UNKNOWN

/-- Modelled from the spec: `string_to_clog_type` (declared at line 49),
the free-function form of the same table lookup. -/
def string_to_clog_type (s : String) : clog_type := LogEntry.str_to_level s

/-! ## Token-level wire model (spec §4.7, §6)

The encode/decode bodies live in `common/LogEntry.cc`, outside the analysed
sources, and the byte layout is not specified; a token stream models the
spec's field order, version tagging and capability gating exactly. -/

/-- One encoded field. -/
inductive Tok where
  | nat (n : Nat)
  | int (i : Int)
  | str (s : String)
deriving DecidableEq, Repr

def readNat : List Tok → Option (Nat × List Tok)
  | .nat n :: r => some (n, r)
  | _ => none

def readInt : List Tok → Option (Int × List Tok)
  | .int i :: r => some (i, r)
  | _ => none

def readStr : List Tok → Option (String × List Tok)
  | .str s :: r => some (s, r)
  | _ => none

def readList {α : Type} (read : List Tok → Option (α × List Tok)) :
    Nat → List Tok → Option (List α × List Tok)
  | 0, ts => some ([], ts)
  | n + 1, ts => do
    let (x, ts1) ← read ts
    let (xs, ts2) ← readList read n ts1
    some (x :: xs, ts2)

/-- Decoding an unknown numeric severity value is a decode error. -/
def clog_type.ofVal (i : Int) : Option clog_type :=
  if i = 0 then some .CLOG_DEBUG
  else if i = 1 then some .CLOG_INFO
  else if i = 2 then some .CLOG_SEC
  else if i = 3 then some .CLOG_WARN
  else if i = 4 then some .CLOG_ERROR
  else if i = -1 then some .CLOG_UNKNOWN
  else none

/-- Modelled from the spec: the capability bit of the feature bitmask that
gates the optional address-vector field of a record (spec §4.2: "absent
address set → empty set"). -/
def FEATURE_ADDRVEC : Nat := 0

/-- Test of one capability bit of the feature bitmask. -/
def hasFeature (features : Nat) (bit : Nat) : Bool := features.testBit bit

/-- Modelled from the spec: `LogEntry::encode(bl, features)` (declared at
line 112, defined in `common/LogEntry.cc`). A wire version tag comes first;
the address vector is included only when the capability bitmask supports
it; the remaining fields follow in declaration order. -/
def LogEntry.encode (e : LogEntry) (features : Nat) : List Tok :=
  (if hasFeature features FEATURE_ADDRVEC then
    [Tok.nat 2, Tok.str e.name, Tok.nat e.rank.type, Tok.int e.rank.num,
     Tok.nat e.addrs.length] ++ e.addrs.map Tok.str
  else
    [Tok.nat 1, Tok.str e.name, Tok.nat e.rank.type, Tok.int e.rank.num])
  ++ [Tok.nat e.stamp.sec, Tok.nat e.stamp.nsec, Tok.nat e.seq,
      Tok.int e.prio.val, Tok.str e.msg, Tok.str e.channel]

/-- The optional-address stage of record decoding: version 2 streams carry
a counted address list, version 1 streams omit it and it defaults to
empty. -/
def readAddrs (v : Nat) (ts : List Tok) : Option (List String × List Tok) :=
  if v = 2 then
    match readNat ts with
    | some (n, ts) => readList readStr n ts
    | none => none
  else some ([], ts)

/-- The fields of a record following the address stage, in declaration
order; an unknown severity value is a decode error. -/
def decodeRest (nm : String) (ty : Nat) (nu : Int) (addrs : List String)
    (ts : List Tok) : Option (LogEntry × List Tok) := do
  let (sec, ts) ← readNat ts
  let (nsec, ts) ← readNat ts
  let (sq, ts) ← readNat ts
  let (pv, ts) ← readInt ts
  let (m, ts) ← readStr ts
  let (ch, ts) ← readStr ts
  match clog_type.ofVal pv with
  | some prio => some (⟨nm, ⟨ty, nu⟩, addrs, ⟨sec, nsec⟩, sq, prio, m, ch⟩, ts)
  | none => none

/-- Modelled from the spec: `LogEntry::decode`. Reads the version tag,
fails cleanly on an unknown version, and defaults the address vector to
empty when the encoder's version omitted it. -/
def LogEntry.decode (ts : List Tok) : Option (LogEntry × List Tok) := do
  let (v, ts) ← readNat ts
  if v = 1 ∨ v = 2 then do
    let (nm, ts) ← readStr ts
    let (ty, ts) ← readNat ts
    let (nu, ts) ← readInt ts
    match readAddrs v ts with
    | some (a, ts) => decodeRest nm ty nu a ts
    | none => none
  else none

/-- The documented default-filling of fields omitted at a capability level
(spec §4.2): without the address capability, the address vector decodes as
the empty set. -/
def fillEntry (features : Nat) (e : LogEntry) : LogEntry :=
  if hasFeature features FEATURE_ADDRVEC then e else { e with addrs := [] }

/-- Modelled from the spec: serialization of an Identity for the round-trip
property of spec §8 (no encoder for `LogEntryKey` is declared in the header;
the fixture round-trip is specified over Identity values regardless). The
three identity fields are written; decode reconstructs through the
three-argument constructor, recomputing the cached hash. -/
def LogEntryKey.encode (k : LogEntryKey) : List Tok :=
  [Tok.nat k.rank.type, Tok.int k.rank.num, Tok.nat k.stamp.sec,
   Tok.nat k.stamp.nsec, Tok.nat k.seq]

/-- Modelled from the spec: Identity decoding (see `LogEntryKey.encode`). -/
def LogEntryKey.decode (h : entity_name_t → Nat) (ts : List Tok) :
    Option (LogEntryKey × List Tok) := do
  let (ty, ts) ← readNat ts
  let (nu, ts) ← readInt ts
  let (sec, ts) ← readNat ts
  let (nsec, ts) ← readNat ts
  let (sq, ts) ← readNat ts
  some (LogEntryKey.mk3 h ⟨ty, nu⟩ ⟨sec, nsec⟩ sq, ts)

/-- One channel on the wire: name, length, then the (seq, record) pairs in
original order (spec §6). -/
def encodeChannel (features : Nat) (ci : String × List (Nat × LogEntry)) :
    List Tok :=
  Tok.str ci.1 :: Tok.nat ci.2.length ::
    (ci.2.map (fun p => Tok.nat p.1 :: p.2.encode features)).flatten

/-- Modelled from the spec: `LogSummary::encode(bl, features)` (declared at
line 147, defined in `common/LogEntry.cc`). Format version tag, then
`version`, then `global_seq`, then every channel in map order (spec §6). -/
def LogSummary.encode (s : LogSummary) (features : Nat) : List Tok :=
  [Tok.nat 1, Tok.nat s.version, Tok.nat s.seq,
   Tok.nat s.tail_by_channel.length]
  ++ (s.tail_by_channel.map (encodeChannel features)).flatten

def readPair (ts : List Tok) : Option ((Nat × LogEntry) × List Tok) := do
  let (n, ts) ← readNat ts
  let (e, ts) ← LogEntry.decode ts
  some ((n, e), ts)

def readChannel (ts : List Tok) :
    Option ((String × List (Nat × LogEntry)) × List Tok) := do
  let (c, ts) ← readStr ts
  let (n, ts) ← readNat ts
  match readList readPair n ts with
  | some (l, ts) => some ((c, l), ts)
  | none => none

/-- Rebuilding the dedup index from the decoded records (spec §4.7: decode
"rebuilds `seen` from the decoded records rather than trusting a serialized
copy"). -/
def rebuildKeys (h : entity_name_t → Nat) (m : ChannelMap) : List LogEntryKey :=
  m.foldl (fun ks ci => ci.2.foldl (fun ks p => ukInsert ks (p.2.key h)) ks) []

/-- Modelled from the spec: `LogSummary::decode` (declared at line 148,
defined in `common/LogEntry.cc`). Reads the format tag (failing cleanly on
an unknown one), `version`, `global_seq` and the channels, and rebuilds
`keys` from the decoded records. -/
def LogSummary.decode (h : entity_name_t → Nat) (ts : List Tok) :
    Option (LogSummary × List Tok) := do
  let (tag, ts) ← readNat ts
  if tag = 1 then do
    let (ver, ts) ← readNat ts
    let (sq, ts) ← readNat ts
    let (n, ts) ← readNat ts
    match readList readChannel n ts with
    | some (m, ts) =>
      some ({ version := ver, tail_by_channel := m, seq := sq,
              keys := rebuildKeys h m }, ts)
    | none => none
  else none

/-- Default-filling of one channel's decoded pairs. -/
def fillChannel (features : Nat) (ci : String × List (Nat × LogEntry)) :
    String × List (Nat × LogEntry) :=
  (ci.1, ci.2.map (fun p => (p.1, fillEntry features p.2)))

/-- Default-filling of a whole decoded channel map. -/
def fillTail (features : Nat) (m : ChannelMap) : ChannelMap :=
  m.map (fillChannel features)

/-! ## Canonical fixtures and concrete instances -/

/-- A concrete stand-in for the external `std::hash<entity_name_t>`. -/
def h0 : entity_name_t → Nat := fun _ => 0

/-- Another concrete stand-in hash, mapping every entity name to 1. -/
def h1 : entity_name_t → Nat := fun _ => 1

/-- Scenario A record X: channel "cluster" (spec §8). -/
def entX : LogEntry :=
  ⟨"mon.a", ⟨1, 0⟩, [], ⟨10, 0⟩, 100, .CLOG_INFO, "X", "cluster"⟩

/-- Scenario A record Y: channel "audit". -/
def entY : LogEntry :=
  ⟨"mon.b", ⟨1, 1⟩, [], ⟨11, 0⟩, 101, .CLOG_WARN, "Y", "audit"⟩

/-- Scenario A record Z: channel "cluster". -/
def entZ : LogEntry :=
  ⟨"mon.c", ⟨1, 2⟩, [], ⟨12, 0⟩, 102, .CLOG_ERROR, "Z", "cluster"⟩

/-- A record in channel "a". -/
def entA : LogEntry :=
  ⟨"osd.1", ⟨4, 1⟩, [], ⟨5, 0⟩, 5, .CLOG_INFO, "first", "a"⟩

/-- A record in channel "b" with the same identity fields as `entA`. -/
def entB : LogEntry :=
  ⟨"osd.1", ⟨4, 1⟩, [], ⟨5, 0⟩, 5, .CLOG_INFO, "dup", "b"⟩

/-- A second, fresher record in channel "a". -/
def entC : LogEntry :=
  ⟨"osd.1", ⟨4, 1⟩, [], ⟨6, 0⟩, 6, .CLOG_INFO, "second", "a"⟩

/-- The state reached by admitting `entA`, `entB` (same identity as `entA`,
other channel), `entC`, then pruning to one record per channel. -/
def badState : LogSummary :=
  (((LogSummary.empty.add h0 entA).add h0 entB).add h0 entC).prune h0 1

/-- Modelled from the spec: canonical Record fixtures
(`LogEntry::generate_test_instances`, defined in `common/LogEntry.cc`;
spec §6: "a small set of canonical sample instances"). -/
def LogEntry.generate_test_instances : List LogEntry :=
  [⟨"", ⟨0, 0⟩, [], ⟨0, 0⟩, 0, .CLOG_DEBUG, "", ""⟩,
   ⟨"osd.0", ⟨4, 0⟩, ["v2:127.0.0.1:6800"], ⟨12345, 678⟩, 42, .CLOG_WARN,
    "example", "cluster"⟩]

/-- Modelled from the spec: canonical Identity fixtures
(`LogEntryKey::generate_test_instances`, defined in `common/LogEntry.cc`). -/
def LogEntryKey.generate_test_instances (h : entity_name_t → Nat) :
    List LogEntryKey :=
  [LogEntryKey.mk3 h ⟨0, 0⟩ ⟨0, 0⟩ 0, LogEntryKey.mk3 h ⟨4, 1⟩ ⟨1, 2⟩ 3]

/-- Modelled from the spec: canonical Summary fixtures
(`LogSummary::generate_test_instances`, defined in `common/LogEntry.cc`):
the empty summary and a two-channel summary built by admission. -/
def LogSummary.generate_test_instances (h : entity_name_t → Nat) :
    List LogSummary :=
  [LogSummary.empty, (LogSummary.empty.add h entX).add h entY]

/-! ## Basic lemmas about the key equality and the set model -/

theorem keyEq_refl (k : LogEntryKey) : keyEq k k := ⟨rfl, rfl, rfl⟩

theorem keyEq_symm {a b : LogEntryKey} (hab : keyEq a b) : keyEq b a :=
  ⟨hab.1.symm, hab.2.1.symm, hab.2.2.symm⟩

theorem keyEq_trans {a b c : LogEntryKey} (hab : keyEq a b) (hbc : keyEq b c) :
    keyEq a c :=
  ⟨hab.1.trans hbc.1, hab.2.1.trans hbc.2.1, hab.2.2.trans hbc.2.2⟩

@[simp] theorem keyBeq_iff {a b : LogEntryKey} : keyBeq a b = true ↔ keyEq a b := by
  simp [keyBeq]

theorem ukCount_true_iff {ks : List LogEntryKey} {k : LogEntryKey} :
    ukCount ks k = true ↔ ∃ x ∈ ks, keyEq x k := by
  simp [ukCount]

theorem ukCount_ukInsert (ks : List LogEntryKey) (k k' : LogEntryKey) :
    ukCount (ukInsert ks k) k' = (keyBeq k k' || ukCount ks k') := by
  unfold ukInsert
  by_cases hp : ks.any (fun x => keyBeq x k) = true
  · simp only [hp, if_true]
    by_cases hk : keyBeq k k' = true
    · simp only [hk, Bool.true_or]
      obtain ⟨x, hx, hxe⟩ := List.any_eq_true.mp hp
      exact ukCount_true_iff.mpr ⟨x, hx, keyEq_trans (keyBeq_iff.mp hxe) (keyBeq_iff.mp hk)⟩
    · simp [Bool.eq_false_iff.mpr hk, ukCount]
  · simp [hp, ukCount]

theorem ukCount_ukErase (ks : List LogEntryKey) (k k' : LogEntryKey) :
    ukCount (ukErase ks k) k' =
      (ks.any (fun x => keyBeq x k' && !keyBeq x k)) := by
  unfold ukErase ukCount
  induction ks with
  | nil => rfl
  | cons a t ih =>
    by_cases ha : keyBeq a k = true <;> simp [List.filter_cons, ha, ih]


/-! ## Structure of `add` and closed form of `prune` -/

theorem addToChannel_flatten_decomp (m : ChannelMap) (c : String)
    (p : Nat × LogEntry) :
    ∃ l1 l2, (m.map (fun ci => ci.2)).flatten = l1 ++ l2 ∧
      ((addToChannel m c p).map (fun ci => ci.2)).flatten = l1 ++ p :: l2 := by
  induction m with
  | nil => exact ⟨[], [], rfl, rfl⟩
  | cons ci rest ih =>
    by_cases hc : ci.1 = c
    · exact ⟨ci.2, (rest.map (fun x => x.2)).flatten, by simp [addToChannel, hc]⟩
    · obtain ⟨l1, l2, h1, h2⟩ := ih
      exact ⟨ci.2 ++ l1, l2, by simp [addToChannel, hc, h1, h2]⟩

theorem entryPairs_add (h : entity_name_t → Nat) (s : LogSummary) (e : LogEntry) :
    ∃ l1 l2, s.entryPairs = l1 ++ l2 ∧
      (s.add h e).entryPairs = l1 ++ (s.seq + 1, e) :: l2 := by
  obtain ⟨l1, l2, h1, h2⟩ :=
    addToChannel_flatten_decomp s.tail_by_channel e.channel (s.seq + 1, e)
  exact ⟨l1, l2, h1, h2⟩

theorem pruneLoop_eq (h : entity_name_t → Nat) (mx : Nat)
    (l : List (Nat × LogEntry)) (ks : List LogEntryKey) :
    pruneLoop h mx l ks =
      (l.drop (l.length - mx),
       ks.filter (fun x =>
         !(l.take (l.length - mx)).any (fun p => keyBeq x (p.2.key h)))) := by
  induction l generalizing ks with
  | nil => simp [pruneLoop]
  | cons p t ih =>
    by_cases hlen : t.length + 1 > mx
    · have hmx : mx ≤ t.length := Nat.lt_succ_iff.mp hlen
      have hsub : t.length + 1 - mx = (t.length - mx) + 1 := by omega
      rw [pruneLoop, if_pos hlen, ih, Prod.mk.injEq]
      refine ⟨by simp [hsub], ?_⟩
      simp only [List.length_cons, hsub, List.take_succ_cons, List.any_cons,
        ukErase, List.filter_filter, Bool.not_or]
      refine List.filter_congr ?_
      intro a _
      exact Bool.and_comm _ _
    · have hz : t.length + 1 - mx = 0 := by omega
      rw [pruneLoop, if_neg hlen]
      simp [hz]

theorem prune_foldl_closed (h : entity_name_t → Nat) (mx : Nat) (m : ChannelMap) :
    ∀ (acc : ChannelMap) (ks : List LogEntryKey),
      m.foldl (fun acc ci =>
          (acc.1 ++ [(ci.1, ci.2.drop (ci.2.length - mx))],
           acc.2.filter (fun x =>
             !(ci.2.take (ci.2.length - mx)).any
               (fun p => keyBeq x (p.2.key h))))) (acc, ks) =
        (acc ++ m.map (fun ci => (ci.1, ci.2.drop (ci.2.length - mx))),
         ks.filter (fun x =>
           !(droppedPairs mx m).any (fun p => keyBeq x (p.2.key h)))) := by
  induction m with
  | nil => intro acc ks; simp [droppedPairs]
  | cons ci rest ih =>
    intro acc ks
    simp only [List.foldl_cons]
    rw [ih, Prod.mk.injEq]
    constructor
    · simp
    · rw [List.filter_filter]
      refine List.filter_congr ?_
      intro a _
      simp only [droppedPairs, List.map_cons, List.flatten_cons, List.any_append,
        Bool.not_or]
      exact Bool.and_comm _ _

theorem prune_foldl (h : entity_name_t → Nat) (mx : Nat) (m : ChannelMap)
    (acc : ChannelMap) (ks : List LogEntryKey) :
    m.foldl (fun acc ci =>
        let pr := pruneLoop h mx ci.2 acc.2
        (acc.1 ++ [(ci.1, pr.1)], pr.2)) (acc, ks) =
      (acc ++ m.map (fun ci => (ci.1, ci.2.drop (ci.2.length - mx))),
       ks.filter (fun x =>
         !(droppedPairs mx m).any (fun p => keyBeq x (p.2.key h)))) := by
  simp only [pruneLoop_eq]
  exact prune_foldl_closed h mx m acc ks

/-- Closed form of `LogSummary::prune`: every channel keeps the last `mx`
entries of its list, and the keys of all removed entries are erased. -/
theorem prune_eq (h : entity_name_t → Nat) (s : LogSummary) (mx : Nat) :
    s.prune h mx =
      { s with
        tail_by_channel :=
          s.tail_by_channel.map (fun ci => (ci.1, ci.2.drop (ci.2.length - mx)))
        keys := s.keys.filter (fun x =>
          !(droppedPairs mx s.tail_by_channel).any
            (fun p => keyBeq x (p.2.key h))) } := by
  unfold LogSummary.prune
  rw [prune_foldl]
  rfl


/-! ## Invariants of reachable states -/

theorem retains_true_iff {h : entity_name_t → Nat} {s : LogSummary}
    {k : LogEntryKey} :
    s.retains h k = true ↔ ∃ p ∈ s.entryPairs, keyEq (p.2.key h) k := by
  simp [LogSummary.retains]

theorem addToChannel_cases (m : ChannelMap) (c : String) (p : Nat × LogEntry) :
    ∀ ci ∈ addToChannel m c p,
      ci ∈ m ∨ (∃ l, (c, l) ∈ m ∧ ci = (c, l ++ [p])) ∨ ci = (c, [p]) := by
  induction m with
  | nil =>
    intro ci hci
    simp only [addToChannel, List.mem_singleton] at hci
    exact Or.inr (Or.inr hci)
  | cons cj rest ih =>
    intro ci hci
    by_cases hc : cj.1 = c
    · simp only [addToChannel, if_pos hc, List.mem_cons] at hci
      rcases hci with h1 | h2
      · refine Or.inr (Or.inl ⟨cj.2, ?_, by rw [h1, hc]⟩)
        rw [← hc, Prod.mk.eta]
        exact List.mem_cons_self _ _
      · exact Or.inl (List.mem_cons_of_mem _ h2)
    · simp only [addToChannel, if_neg hc, List.mem_cons] at hci
      rcases hci with h1 | h2
      · exact Or.inl (by rw [h1]; exact List.mem_cons_self _ _)
      · rcases ih ci h2 with ha | ⟨l, hl, he⟩ | he
        · exact Or.inl (List.mem_cons_of_mem _ ha)
        · exact Or.inr (Or.inl ⟨l, List.mem_cons_of_mem _ hl, he⟩)
        · exact Or.inr (Or.inr he)

theorem inv_empty : LogSummary.empty.Inv := by
  intro ci hci
  simp [LogSummary.empty] at hci

theorem chain'_drop {α : Type} {R : α → α → Prop} :
    ∀ (n : Nat) {l : List α}, l.Chain' R → (l.drop n).Chain' R := by
  intro n
  induction n with
  | zero => intro l hl; exact hl
  | succ n ih =>
    intro l hl
    cases l with
    | nil => exact List.chain'_nil
    | cons a t => exact ih hl.tail

theorem inv_add {h : entity_name_t → Nat} {s : LogSummary} (e : LogEntry)
    (hs : s.Inv) : (s.add h e).Inv := by
  intro ci hci
  rcases addToChannel_cases s.tail_by_channel e.channel (s.seq + 1, e) ci hci with
    hm | ⟨l, hl, he⟩ | he
  · obtain ⟨h1, h2⟩ := hs ci hm
    exact ⟨h1, fun p hp => Nat.le_succ_of_le (h2 p hp)⟩
  · obtain ⟨h1, h2⟩ := hs (e.channel, l) hl
    subst he
    constructor
    · rw [List.chain'_append]
      refine ⟨h1, List.chain'_singleton _, ?_⟩
      intro x hx y hy
      simp only [List.head?_cons, Option.mem_def, Option.some.injEq] at hy
      have hxl : x ∈ l := List.mem_of_mem_getLast? hx
      have hx1 : x.1 ≤ s.seq := h2 x hxl
      rw [← hy]
      exact Nat.lt_succ_of_le hx1
    · intro p hp
      rcases List.mem_append.mp hp with hp1 | hp2
      · exact Nat.le_succ_of_le (h2 p hp1)
      · simp only [List.mem_singleton] at hp2
        subst hp2
        exact Nat.le_refl _
  · subst he
    refine ⟨List.chain'_singleton _, ?_⟩
    intro p hp
    simp only [List.mem_singleton] at hp
    subst hp
    exact Nat.le_refl _

theorem seq_add (h : entity_name_t → Nat) (s : LogSummary) (e : LogEntry) :
    (s.add h e).seq = s.seq + 1 := rfl

theorem seq_prune (h : entity_name_t → Nat) (s : LogSummary) (mx : Nat) :
    (s.prune h mx).seq = s.seq := by
  rw [prune_eq]

theorem inv_prune {h : entity_name_t → Nat} {s : LogSummary} (mx : Nat)
    (hs : s.Inv) : (s.prune h mx).Inv := by
  intro ci hci
  rw [prune_eq] at hci
  simp only [List.mem_map] at hci
  obtain ⟨cj, hcj, hcje⟩ := hci
  obtain ⟨h1, h2⟩ := hs cj hcj
  subst hcje
  refine ⟨chain'_drop _ h1, ?_⟩
  intro p hp
  rw [seq_prune]
  exact h2 p (List.drop_subset _ _ hp)

theorem inv_reachable {h : entity_name_t → Nat} {s : LogSummary}
    (hr : s.Reachable h) : s.Inv := by
  induction hr with
  | empty => exact inv_empty
  | add e _ ih => exact inv_add e ih
  | prune mx _ ih => exact inv_prune mx ih

/-! ## Soundness of the dedup index, and absence of duplicate keys in it -/

theorem retains_add_of_retains {h : entity_name_t → Nat} {s : LogSummary}
    {k : LogEntryKey} (e : LogEntry) (hk : s.retains h k = true) :
    (s.add h e).retains h k = true := by
  obtain ⟨l1, l2, h1, h2⟩ := entryPairs_add h s e
  rw [retains_true_iff] at hk ⊢
  obtain ⟨p, hp, hpk⟩ := hk
  rw [h1] at hp
  refine ⟨p, ?_, hpk⟩
  rw [h2]
  rcases List.mem_append.mp hp with hm | hm
  · exact List.mem_append.mpr (Or.inl hm)
  · exact List.mem_append.mpr (Or.inr (List.mem_cons_of_mem _ hm))

theorem retains_add_self (h : entity_name_t → Nat) (s : LogSummary)
    (e : LogEntry) : (s.add h e).retains h (e.key h) = true := by
  obtain ⟨l1, l2, _, h2⟩ := entryPairs_add h s e
  rw [retains_true_iff]
  exact ⟨(s.seq + 1, e), by
    rw [h2]; exact List.mem_append.mpr (Or.inr (List.mem_cons_self _ _)),
    keyEq_refl _⟩

theorem entryPairs_prune_complement (h : entity_name_t → Nat) (s : LogSummary)
    (mx : Nat) {p : Nat × LogEntry} (hp : p ∈ s.entryPairs) :
    p ∈ droppedPairs mx s.tail_by_channel ∨ p ∈ (s.prune h mx).entryPairs := by
  unfold LogSummary.entryPairs at hp
  rw [List.mem_flatten] at hp
  obtain ⟨l, hl, hpl⟩ := hp
  rw [List.mem_map] at hl
  obtain ⟨ci, hci, hcil⟩ := hl
  subst hcil
  have hsplit : p ∈ ci.2.take (ci.2.length - mx) ++ ci.2.drop (ci.2.length - mx) := by
    rw [List.take_append_drop]
    exact hpl
  rcases List.mem_append.mp hsplit with hm | hm
  · left
    unfold droppedPairs
    rw [List.mem_flatten]
    exact ⟨ci.2.take (ci.2.length - mx), List.mem_map.mpr ⟨ci, hci, rfl⟩, hm⟩
  · right
    unfold LogSummary.entryPairs
    rw [prune_eq, List.mem_flatten]
    refine ⟨ci.2.drop (ci.2.length - mx), ?_, hm⟩
    rw [List.map_map]
    exact List.mem_map.mpr ⟨ci, hci, rfl⟩

/-- Soundness half of invariant 3: on every reachable state, every identity
the dedup index holds belongs to some currently retained record. -/
theorem keys_sound {h : entity_name_t → Nat} {s : LogSummary}
    (hr : s.Reachable h) :
    ∀ k : LogEntryKey, ukCount s.keys k = true → s.retains h k = true := by
  induction hr with
  | empty =>
    intro k hk
    simp [LogSummary.empty, ukCount] at hk
  | add e _ ih =>
    rename_i s' _
    intro k hk
    rw [LogSummary.add] at hk
    simp only at hk
    rw [ukCount_ukInsert] at hk
    rcases Bool.or_eq_true_iff.mp hk with hke | hks
    · have := retains_add_self h s' e
      rw [retains_true_iff] at this ⊢
      obtain ⟨p, hp, hpk⟩ := this
      exact ⟨p, hp, keyEq_trans hpk (keyBeq_iff.mp hke)⟩
    · exact retains_add_of_retains e (ih k hks)
  | prune mx _ ih =>
    rename_i s' _
    intro k hk
    rw [prune_eq] at hk
    simp only at hk
    rw [ukCount_true_iff] at hk
    obtain ⟨x, hx, hxk⟩ := hk
    rw [List.mem_filter] at hx
    obtain ⟨hxs, hxd⟩ := hx
    have hsk : ukCount s'.keys k = true := ukCount_true_iff.mpr ⟨x, hxs, hxk⟩
    have hret := ih k hsk
    rw [retains_true_iff] at hret
    obtain ⟨p, hp, hpk⟩ := hret
    rcases entryPairs_prune_complement h s' mx hp with hd | hkept
    · exfalso
      have : keyBeq x (p.2.key h) = true :=
        keyBeq_iff.mpr (keyEq_trans hxk (keyEq_symm hpk))
      have hany : (droppedPairs mx s'.tail_by_channel).any
          (fun q => keyBeq x (q.2.key h)) = true :=
        List.any_eq_true.mpr ⟨p, hd, this⟩
      rw [hany] at hxd
      simp at hxd
    · exact retains_true_iff.mpr ⟨p, hkept, hpk⟩

theorem keysNodup_ukInsert {ks : List LogEntryKey} (k : LogEntryKey)
    (hn : keysNodup ks) : keysNodup (ukInsert ks k) := by
  unfold ukInsert
  by_cases hp : ks.any (fun x => keyBeq x k) = true
  · rw [if_pos hp]; exact hn
  · rw [if_neg hp]
    refine List.Pairwise.cons ?_ hn
    intro x hx hke
    refine hp ?_
    exact List.any_eq_true.mpr ⟨x, hx, keyBeq_iff.mpr (keyEq_symm hke)⟩

theorem keysNodup_reachable {h : entity_name_t → Nat} {s : LogSummary}
    (hr : s.Reachable h) : keysNodup s.keys := by
  induction hr with
  | empty => exact List.Pairwise.nil
  | add e _ ih => exact keysNodup_ukInsert _ ih
  | prune mx _ ih =>
    rw [prune_eq]
    exact List.Pairwise.filter _ ih

theorem countP_le_one_of_keysNodup {ks : List LogEntryKey} {k : LogEntryKey}
    (hn : keysNodup ks) : ks.countP (fun x => keyBeq x k) ≤ 1 := by
  induction ks with
  | nil => simp
  | cons a t ih =>
    have ha : ∀ x ∈ t, ¬ keyEq a x := fun x hx =>
      List.rel_of_pairwise_cons hn hx
    have ht := ih (List.Pairwise.sublist (List.sublist_cons_self a t) hn)
    rw [List.countP_cons]
    by_cases hak : keyBeq a k = true
    · have hz : t.countP (fun x => keyBeq x k) = 0 := by
        rw [List.countP_eq_zero]
        intro x hx hxk
        exact ha x hx
          (keyEq_trans (keyBeq_iff.mp hak) (keyEq_symm (keyBeq_iff.mp hxk)))
      simp [hz, hak]
    · simp only [hak, if_neg]
      simpa using ht

theorem seq_run_mono (h : entity_name_t → Nat) :
    ∀ (ops : List Op) (s : LogSummary), s.seq ≤ (s.run h ops).seq := by
  intro ops
  induction ops with
  | nil => intro s; exact Nat.le_refl _
  | cons o os ih =>
    intro s
    show s.seq ≤ ((s.step h o).run h os).seq
    refine Nat.le_trans ?_ (ih (s.step h o))
    cases o with
    | add e => exact Nat.le_succ _
    | prune mx =>
      show s.seq ≤ (s.prune h mx).seq
      rw [seq_prune]

/-- C2: for every record `e` and every summary `s`, immediately after
`s.add(e)` and before any prune, `s.contains(e.key())` returns true. -/
theorem add_then_contains (h : entity_name_t → Nat) (s : LogSummary)
    (e : LogEntry) : (s.add h e).contains (e.key h) = true := by
  show ukCount (ukInsert s.keys (e.key h)) (e.key h) = true
  rw [ukCount_ukInsert]
  have : keyBeq (e.key h) (e.key h) = true := keyBeq_iff.mpr (keyEq_refl _)
  rw [this, Bool.true_or]

/-- C3: after `prune(max)` every channel keeps exactly the last `max`
entries of its list (all of them when it was no longer), in their original
order: the pruned channel map is the original one with each list replaced
by its length-at-most-`max` suffix, every pruned channel's length is at
most `max`, and a channel that held more than `max` entries retains exactly
`max` of them. -/
theorem prune_caps_and_keeps_suffix (h : entity_name_t → Nat)
    (s : LogSummary) (mx : Nat) :
    (s.prune h mx).tail_by_channel =
      s.tail_by_channel.map (fun ci => (ci.1, ci.2.drop (ci.2.length - mx))) ∧
    (∀ ci ∈ (s.prune h mx).tail_by_channel, ci.2.length ≤ mx) ∧
    (∀ ci ∈ s.tail_by_channel, mx < ci.2.length →
      (ci.1, ci.2.drop (ci.2.length - mx)) ∈ (s.prune h mx).tail_by_channel ∧
      (ci.2.drop (ci.2.length - mx)).length = mx) := by
  have htail : (s.prune h mx).tail_by_channel =
      s.tail_by_channel.map (fun ci => (ci.1, ci.2.drop (ci.2.length - mx))) := by
    rw [prune_eq]
  refine ⟨htail, ?_, ?_⟩
  · intro ci hci
    rw [htail] at hci
    obtain ⟨cj, _, hcje⟩ := List.mem_map.mp hci
    subst hcje
    simp only [List.length_drop]
    omega
  · intro ci hci hlen
    constructor
    · rw [htail]
      exact List.mem_map.mpr ⟨ci, hci, rfl⟩
    · simp only [List.length_drop]
      omega

theorem prune_caps_witness :
    (("cluster", [(1, entX)]) ∈ (LogSummary.empty.add h0 entX).tail_by_channel ∧
      0 < 1) ∧
    (("cluster", []) ∈
        ((LogSummary.empty.add h0 entX).prune h0 0).tail_by_channel ∧
      ([(1, entX)].drop 1).length = 0) :=
  ⟨⟨by decide, by decide⟩,
    (prune_caps_and_keeps_suffix h0 (LogSummary.empty.add h0 entX) 0).2.2
      ("cluster", [(1, entX)]) (by decide) (by decide)⟩

/-- C4: assigned global sequence numbers strictly increase over admissions:
`add` assigns the successor of the global counter, `prune` leaves the
counter unchanged, the counter never decreases under any operation
sequence, so an earlier admission's assigned seq is strictly below any
later admission's; on every reachable state each channel's stored list is
strictly increasing in assigned seq, and pruning removes only a prefix
(each channel keeps a suffix of its list). -/
theorem assigned_seq_strict_order (h : entity_name_t → Nat) :
    (∀ (s : LogSummary) (e : LogEntry), (s.add h e).seq = s.seq + 1) ∧
    (∀ (s : LogSummary) (mx : Nat), (s.prune h mx).seq = s.seq) ∧
    (∀ (s : LogSummary) (ops : List Op), s.seq ≤ (s.run h ops).seq) ∧
    (∀ (s : LogSummary) (e1 : LogEntry) (ops : List Op),
      s.seq + 1 < ((s.add h e1).run h ops).seq + 1) ∧
    (∀ s : LogSummary, s.Reachable h →
      ∀ ci ∈ s.tail_by_channel, ci.2.Chain' (fun a b => a.1 < b.1)) ∧
    (∀ (s : LogSummary) (mx : Nat), ∀ ci ∈ s.tail_by_channel,
      (ci.1, ci.2.drop (ci.2.length - mx)) ∈ (s.prune h mx).tail_by_channel) := by
  refine ⟨fun s e => rfl, seq_prune h, fun s ops => seq_run_mono h ops s, ?_, ?_, ?_⟩
  · intro s e1 ops
    have := seq_run_mono h ops (s.add h e1)
    rw [seq_add] at this
    omega
  · intro s hr ci hci
    exact (inv_reachable hr ci hci).1
  · intro s mx ci hci
    rw [prune_eq]
    exact List.mem_map.mpr ⟨ci, hci, rfl⟩

theorem assigned_seq_witness :
    (∀ ci ∈ (LogSummary.empty.add h0 entX).tail_by_channel,
      ci.2.Chain' (fun a b => a.1 < b.1)) ∧
    ("cluster", []) ∈
      ((LogSummary.empty.add h0 entX).prune h0 0).tail_by_channel :=
  ⟨(assigned_seq_strict_order h0).2.2.2.2.1 (LogSummary.empty.add h0 entX)
      (LogSummary.Reachable.add entX LogSummary.Reachable.empty),
    (assigned_seq_strict_order h0).2.2.2.2.2 (LogSummary.empty.add h0 entX) 0
      ("cluster", [(1, entX)]) (by decide)⟩

theorem prune_entryPairs_eq (h : entity_name_t → Nat) (s : LogSummary)
    (mx : Nat) :
    (s.prune h mx).entryPairs =
      (s.tail_by_channel.map (fun ci => ci.2.drop (ci.2.length - mx))).flatten := by
  rw [LogSummary.entryPairs, prune_eq]
  rw [List.map_map]
  rfl

theorem prune_entryPairs_subset (h : entity_name_t → Nat) (s : LogSummary)
    (mx : Nat) : (s.prune h mx).entryPairs ⊆ s.entryPairs := by
  intro p hp
  rw [prune_entryPairs_eq, List.mem_flatten] at hp
  obtain ⟨l, hl, hpl⟩ := hp
  obtain ⟨ci, hci, hcil⟩ := List.mem_map.mp hl
  subst hcil
  rw [LogSummary.entryPairs, List.mem_flatten]
  exact ⟨ci.2, List.mem_map.mpr ⟨ci, hci, rfl⟩, List.drop_subset _ _ hpl⟩

theorem dropped_sub_flatten (mx : Nat) (m : ChannelMap) :
    droppedPairs mx m ⊆ (m.map (fun ci => ci.2)).flatten := by
  intro p hp
  rw [droppedPairs, List.mem_flatten] at hp
  obtain ⟨l, hl, hpl⟩ := hp
  obtain ⟨ci, hci, hcil⟩ := List.mem_map.mp hl
  subst hcil
  rw [List.mem_flatten]
  exact ⟨ci.2, List.mem_map.mpr ⟨ci, hci, rfl⟩, List.take_subset _ _ hpl⟩

theorem kept_sub_flatten (mx : Nat) (m : ChannelMap) :
    (m.map (fun ci => ci.2.drop (ci.2.length - mx))).flatten ⊆
      (m.map (fun ci => ci.2)).flatten := by
  intro p hp
  rw [List.mem_flatten] at hp
  obtain ⟨l, hl, hpl⟩ := hp
  obtain ⟨ci, hci, hcil⟩ := List.mem_map.mp hl
  subst hcil
  rw [List.mem_flatten]
  exact ⟨ci.2, List.mem_map.mpr ⟨ci, hci, rfl⟩, List.drop_subset _ _ hpl⟩

/-- When no two retained records share an identity, a pruned record's
identity is never the identity of a kept record. -/
theorem dropped_kept_not_keyEq (h : entity_name_t → Nat) (mx : Nat)
    (m : ChannelMap)
    (hp : ((m.map (fun ci => ci.2)).flatten).Pairwise
      (fun p q => ¬ keyEq (p.2.key h) (q.2.key h))) :
    ∀ d ∈ droppedPairs mx m,
      ∀ p ∈ (m.map (fun ci => ci.2.drop (ci.2.length - mx))).flatten,
        ¬ keyEq (d.2.key h) (p.2.key h) := by
  induction m with
  | nil =>
    intro d hd
    simp [droppedPairs] at hd
  | cons ci rest ih =>
    simp only [List.map_cons, List.flatten_cons] at hp
    rw [List.pairwise_append] at hp
    obtain ⟨hp1, hp2, hp3⟩ := hp
    intro d hd p hpm
    simp only [droppedPairs, List.map_cons, List.flatten_cons] at hd
    simp only [List.map_cons, List.flatten_cons] at hpm
    rcases List.mem_append.mp hd with hd1 | hd2 <;>
      rcases List.mem_append.mp hpm with hp1m | hp2m
    · have hsplit := (List.take_append_drop (ci.2.length - mx) ci.2)
      have hpw : (ci.2.take (ci.2.length - mx) ++
          ci.2.drop (ci.2.length - mx)).Pairwise
          (fun p q => ¬ keyEq (p.2.key h) (q.2.key h)) := by
        rw [hsplit]; exact hp1
      rw [List.pairwise_append] at hpw
      exact hpw.2.2 d hd1 p hp1m
    · exact hp3 d (List.take_subset _ _ hd1) p (kept_sub_flatten mx rest hp2m)
    · intro hke
      exact hp3 p (List.drop_subset _ _ hp1m) d (dropped_sub_flatten mx rest hd2)
        (keyEq_symm hke)
    · exact ih hp2 d (by rw [droppedPairs]; exact hd2) p hp2m

/-- Admission preserves exactness of the dedup index. -/
theorem keysExact_add {h : entity_name_t → Nat} {s : LogSummary}
    (e : LogEntry) (hx : s.KeysExact h) : (s.add h e).KeysExact h := by
  intro k
  obtain ⟨l1, l2, h1, h2⟩ := entryPairs_add h s e
  show ukCount (ukInsert s.keys (e.key h)) k = _
  rw [ukCount_ukInsert, hx k]
  show _ = (s.add h e).entryPairs.any (fun p => keyBeq (p.2.key h) k)
  rw [LogSummary.retains, h1, h2, List.any_append, List.any_append,
    List.any_cons]
  exact Bool.or_left_comm _ _ _

/-- Characterisation of key-set membership after a prune. -/
theorem mem_prune_keys_iff (h : entity_name_t → Nat) (s : LogSummary)
    (mx : Nat) (x : LogEntryKey) :
    x ∈ (s.prune h mx).keys ↔
      x ∈ s.keys ∧
        ∀ q ∈ droppedPairs mx s.tail_by_channel, ¬ keyEq x (q.2.key h) := by
  rw [prune_eq]
  simp only [List.mem_filter, Bool.not_eq_true', List.any_eq_false,
    keyBeq_iff]

/-- Pruning preserves exactness of the dedup index provided no two
retained records share an identity. -/
theorem keysExact_prune {h : entity_name_t → Nat} {s : LogSummary}
    (mx : Nat) (hx : s.KeysExact h) (hd : s.DistinctKeys h) :
    (s.prune h mx).KeysExact h := by
  have hdk := dropped_kept_not_keyEq h mx s.tail_by_channel hd
  intro k
  by_cases hr : (s.prune h mx).retains h k = true
  · rw [hr]
    obtain ⟨p, hp, hpk⟩ := retains_true_iff.mp hr
    have hpkept : p ∈ (s.tail_by_channel.map
        (fun ci => ci.2.drop (ci.2.length - mx))).flatten := by
      rw [← prune_entryPairs_eq h s mx]
      exact hp
    have hps : p ∈ s.entryPairs := prune_entryPairs_subset h s mx hp
    have hcount : ukCount s.keys k = true := by
      rw [hx k]
      exact retains_true_iff.mpr ⟨p, hps, hpk⟩
    obtain ⟨x, hxmem, hxk⟩ := ukCount_true_iff.mp hcount
    refine ukCount_true_iff.mpr ⟨x, ?_, hxk⟩
    rw [mem_prune_keys_iff]
    refine ⟨hxmem, ?_⟩
    intro q hq hke
    exact hdk q hq p hpkept
      (keyEq_trans (keyEq_trans (keyEq_symm hke) hxk) (keyEq_symm hpk))
  · rw [Bool.not_eq_true] at hr
    rw [hr]
    cases huk : ukCount (s.prune h mx).keys k with
    | false => rfl
    | true =>
      exfalso
      obtain ⟨x, hxmem, hxk⟩ := ukCount_true_iff.mp huk
      rw [mem_prune_keys_iff] at hxmem
      obtain ⟨hxs, hxd⟩ := hxmem
      have hcount : ukCount s.keys k = true := ukCount_true_iff.mpr ⟨x, hxs, hxk⟩
      rw [hx k] at hcount
      obtain ⟨p, hp, hpk⟩ := retains_true_iff.mp hcount
      rcases entryPairs_prune_complement h s mx hp with hdrop | hkept
      · exact hxd p hdrop (keyEq_trans hxk (keyEq_symm hpk))
      · rw [← Bool.not_eq_true] at hr
        exact hr (retains_true_iff.mpr ⟨p, hkept, hpk⟩)

/-- C1 counterexample: the exact-mirror invariant fails on a reachable
state. Admit `entA` to channel "a", `entB` (same identity) to channel "b",
`entC` to channel "a", then `prune(1)`: pruning channel "a"'s copy erases
the shared identity from `keys` although channel "b" still retains it. -/
theorem keys_exact_counterexample :
    ¬ (∀ (h : entity_name_t → Nat) (s : LogSummary),
        s.Reachable h → s.KeysExact h) := by
  intro H
  have hb := H h0 badState
    (LogSummary.Reachable.prune 1 (LogSummary.Reachable.add entC
      (LogSummary.Reachable.add entB (LogSummary.Reachable.add entA
        LogSummary.Reachable.empty)))) (entA.key h0)
  rw [show ukCount badState.keys (entA.key h0) = false from by decide,
    show badState.retains h0 (entA.key h0) = true from by decide] at hb
  exact Bool.false_ne_true hb

/-- C1 (amended): on every reachable state the dedup index is sound —
every identity it holds belongs to some retained record — and `add` always
preserves the exact-mirror invariant; `prune` preserves it only under the
additional assumption that no two retained records share an identity
(which a same-identity record in a second channel violates, making the
index under-report after the prune, as the counterexample shows). -/
theorem keys_exact_amended (h : entity_name_t → Nat) :
    (∀ s : LogSummary, s.Reachable h →
      ∀ k : LogEntryKey, ukCount s.keys k = true → s.retains h k = true) ∧
    (∀ (s : LogSummary) (e : LogEntry),
      s.KeysExact h → (s.add h e).KeysExact h) ∧
    (∀ (s : LogSummary) (mx : Nat),
      s.KeysExact h → s.DistinctKeys h → (s.prune h mx).KeysExact h) :=
  ⟨fun _ hr => keys_sound hr, fun _ e hx => keysExact_add e hx,
    fun _ mx hx hd => keysExact_prune mx hx hd⟩

theorem keys_exact_amended_witness :
    (badState.retains h0 (entC.key h0) = true) ∧
    ((LogSummary.empty.add h0 entA).KeysExact h0) ∧
    (((LogSummary.empty.add h0 entA).prune h0 1).KeysExact h0) := by
  have hsound := (keys_exact_amended h0).1 badState
    (LogSummary.Reachable.prune 1 (LogSummary.Reachable.add entC
      (LogSummary.Reachable.add entB (LogSummary.Reachable.add entA
        LogSummary.Reachable.empty))))
  have hadd := (keys_exact_amended h0).2.1 LogSummary.empty entA
    (fun _ => rfl)
  have hprune := (keys_exact_amended h0).2.2 (LogSummary.empty.add h0 entA) 1
    hadd (List.Pairwise.cons (fun y hy => absurd hy (List.not_mem_nil y))
      List.Pairwise.nil)
  exact ⟨hsound (entC.key h0) (by decide), hadd, hprune⟩

/-- C7: `add` never rejects a record: after admitting `e1` and then `e2`
(any channels, possibly with equal identities), both admissions are
retained as distinct (assigned-seq, record) entries, while the dedup index
holds any single identity at most once. -/
theorem add_never_rejects (h : entity_name_t → Nat) (s : LogSummary)
    (hr : s.Reachable h) (e1 e2 : LogEntry) :
    (s.seq + 1, e1) ∈ ((s.add h e1).add h e2).entryPairs ∧
    (s.seq + 2, e2) ∈ ((s.add h e1).add h e2).entryPairs ∧
    ((s.add h e1).add h e2).keys.countP
      (fun x => keyBeq x (e1.key h)) ≤ 1 := by
  obtain ⟨l1, l2, h1, h2⟩ := entryPairs_add h s e1
  obtain ⟨m1, m2, h3, h4⟩ := entryPairs_add h (s.add h e1) e2
  refine ⟨?_, ?_, ?_⟩
  · have hmem1 : (s.seq + 1, e1) ∈ (s.add h e1).entryPairs := by
      rw [h2]
      exact List.mem_append.mpr (Or.inr (List.mem_cons_self _ _))
    rw [h3] at hmem1
    rw [h4]
    rcases List.mem_append.mp hmem1 with hm | hm
    · exact List.mem_append.mpr (Or.inl hm)
    · exact List.mem_append.mpr (Or.inr (List.mem_cons_of_mem _ hm))
  · rw [h4]
    exact List.mem_append.mpr (Or.inr (List.mem_cons_self _ _))
  · exact countP_le_one_of_keysNodup
      (keysNodup_reachable (LogSummary.Reachable.add e2
        (LogSummary.Reachable.add e1 hr)))

theorem add_never_rejects_witness :
    (1, entA) ∈ ((LogSummary.empty.add h0 entA).add h0 entB).entryPairs ∧
    (2, entB) ∈ ((LogSummary.empty.add h0 entA).add h0 entB).entryPairs ∧
    ((LogSummary.empty.add h0 entA).add h0 entB).keys.countP
      (fun x => keyBeq x (entA.key h0)) ≤ 1 :=
  add_never_rejects h0 LogSummary.empty LogSummary.Reachable.empty entA entB

/-- C6 counterexample: hash consistency with equality does not extend to
default-constructed keys. A default-constructed `LogEntryKey` caches
`_hash = 0` (its constructor never calls `_calc_hash`), while the
three-argument constructor caches `seq + h(rank)`; with any external
entity-name hash taking value 1 on the default rank, the two keys compare
equal under `operator==` but report different hashes. -/
theorem key_hash_counterexample :
    ¬ (∀ (h : entity_name_t → Nat) (a b : LogEntryKey),
        a.Constructed h → b.Constructed h → keyEq a b →
          a.get_hash = b.get_hash) := by
  intro H
  have hc := H h1 LogEntryKey.mkDefault
    (LogEntryKey.mk3 h1 entity_name_t.default ⟨0, 0⟩ 0)
    LogEntryKey.Constructed.default
    (LogEntryKey.Constructed.mk3 entity_name_t.default ⟨0, 0⟩ 0)
    (by decide)
  rw [show LogEntryKey.mkDefault.get_hash = 0 from rfl] at hc
  have : (LogEntryKey.mk3 h1 entity_name_t.default ⟨0, 0⟩ 0).get_hash = 1 := by
    decide
  rw [this] at hc
  exact Nat.zero_ne_one hc

/-- C6 (amended): for keys built by the three-argument constructor the
cached hash is the pure function `(seq + h(rank)) mod 2^64` of the identity
fields, so any two such keys that compare equal under `operator==` report
equal hashes; a default-constructed key instead caches `0`, which agrees
with an equal constructed key only if the external entity-name hash maps
the default rank to `0`. -/
theorem key_hash_consistent_amended (h : entity_name_t → Nat)
    (w1 w2 : entity_name_t) (t1 t2 : utime_t) (s1 s2 : Nat)
    (he : keyEq (LogEntryKey.mk3 h w1 t1 s1) (LogEntryKey.mk3 h w2 t2 s2)) :
    (LogEntryKey.mk3 h w1 t1 s1).get_hash =
      (LogEntryKey.mk3 h w2 t2 s2).get_hash ∧
    (LogEntryKey.mk3 h w1 t1 s1).get_hash = (s1 + h w1) % 2 ^ 64 := by
  obtain ⟨hw, _, hs⟩ := he
  have hw' : w1 = w2 := hw
  have hs' : s1 = s2 := hs
  subst hw' hs'
  exact ⟨rfl, rfl⟩

theorem key_hash_consistent_witness :
    keyEq (LogEntryKey.mk3 h1 ⟨2, 3⟩ ⟨7, 0⟩ 9) (LogEntryKey.mk3 h1 ⟨2, 3⟩ ⟨7, 0⟩ 9) ∧
    (LogEntryKey.mk3 h1 ⟨2, 3⟩ ⟨7, 0⟩ 9).get_hash =
      (LogEntryKey.mk3 h1 ⟨2, 3⟩ ⟨7, 0⟩ 9).get_hash ∧
    (LogEntryKey.mk3 h1 ⟨2, 3⟩ ⟨7, 0⟩ 9).get_hash = (9 + h1 ⟨2, 3⟩) % 2 ^ 64 :=
  ⟨by decide,
    key_hash_consistent_amended h1 ⟨2, 3⟩ ⟨2, 3⟩ ⟨7, 0⟩ ⟨7, 0⟩ 9 9 (by decide)⟩

/-- C10: the computed hash ignores the timestamp: two keys built from the
same rank and sequence number but different stamps are unequal under
`operator==` yet always report the same hash, namely
`(seq + h(rank)) mod 2^64`. -/
theorem hash_ignores_stamp (h : entity_name_t → Nat) (w : entity_name_t)
    (t1 t2 : utime_t) (s : Nat) (hne : t1 ≠ t2) :
    ¬ keyEq (LogEntryKey.mk3 h w t1 s) (LogEntryKey.mk3 h w t2 s) ∧
    (LogEntryKey.mk3 h w t1 s).get_hash = (LogEntryKey.mk3 h w t2 s).get_hash ∧
    (LogEntryKey.mk3 h w t1 s).get_hash = (s + h w) % 2 ^ 64 := by
  refine ⟨?_, rfl, rfl⟩
  intro hke
  exact hne hke.2.1

theorem hash_ignores_stamp_witness :
    (⟨0, 0⟩ : utime_t) ≠ (⟨0, 1⟩ : utime_t) ∧
    (¬ keyEq (LogEntryKey.mk3 h0 ⟨1, 2⟩ ⟨0, 0⟩ 4)
        (LogEntryKey.mk3 h0 ⟨1, 2⟩ ⟨0, 1⟩ 4) ∧
      (LogEntryKey.mk3 h0 ⟨1, 2⟩ ⟨0, 0⟩ 4).get_hash =
        (LogEntryKey.mk3 h0 ⟨1, 2⟩ ⟨0, 1⟩ 4).get_hash ∧
      (LogEntryKey.mk3 h0 ⟨1, 2⟩ ⟨0, 0⟩ 4).get_hash = (4 + h0 ⟨1, 2⟩) % 2 ^ 64) :=
  ⟨by decide, hash_ignores_stamp h0 ⟨1, 2⟩ ⟨0, 0⟩ ⟨0, 1⟩ 4 (by decide)⟩

/-- C8: severity parsing is total with a sentinel fallback: every input
either matches a table entry case-insensitively (and parses to that
entry's severity) or parses to `CLOG_UNKNOWN`; the result depends only on
the lower-cased input; and `string_to_clog_type` is the same lookup. -/
theorem severity_parse_total (str : String) :
    ((∃ p ∈ severity_table, p.1.data = lowerStr str ∧
        LogEntry.str_to_level str = p.2) ∨
      (LogEntry.str_to_level str = .CLOG_UNKNOWN ∧
        ∀ p ∈ severity_table, p.1.data ≠ lowerStr str)) ∧
    (∀ str2 : String, lowerStr str = lowerStr str2 →
      LogEntry.str_to_level str = LogEntry.str_to_level str2) ∧
    string_to_clog_type str = LogEntry.str_to_level str := by
  refine ⟨?_, ?_, rfl⟩
  · cases hf : severity_table.find? (fun p => p.1.data == lowerStr str) with
    | some p =>
      left
      refine ⟨p, List.mem_of_find?_eq_some hf, ?_, ?_⟩
      · have hcond := List.find?_some hf
        exact eq_of_beq hcond
      · rw [LogEntry.str_to_level, hf]
    | none =>
      right
      constructor
      · rw [LogEntry.str_to_level, hf]
      · intro p hp hpe
        have hnone := List.find?_eq_none.mp hf p hp
        rw [hpe] at hnone
        simp at hnone
  · intro str2 heq
    rw [LogEntry.str_to_level, LogEntry.str_to_level, heq]

theorem severity_parse_witness :
    lowerStr "DeBuG" = lowerStr "debug" ∧
    LogEntry.str_to_level "DeBuG" = LogEntry.str_to_level "debug" :=
  ⟨by decide, (severity_parse_total "DeBuG").2.1 "debug" (by decide)⟩

/-- C5: `build_ordered_tail` returns all currently retained records —
its length is the sum of all channels' lengths — read off a seq-sorted
permutation of all retained (assigned-seq, record) pairs, hence in
non-decreasing assigned-seq order; admitting X ("cluster"), Y ("audit"),
Z ("cluster") in that order yields [X, Y, Z], global admission order, not
grouped by channel. -/
theorem build_ordered_tail_spec :
    (∀ s : LogSummary,
      s.build_ordered_tail.length =
        (s.tail_by_channel.map (fun ci => ci.2.length)).sum ∧
      s.orderedPairs.Sorted seqLe ∧
      s.orderedPairs.Perm s.entryPairs ∧
      s.build_ordered_tail = s.orderedPairs.map (fun p => p.2)) ∧
    (∀ h : entity_name_t → Nat,
      (((LogSummary.empty.add h entX).add h entY).add h entZ).build_ordered_tail
        = [entX, entY, entZ]) := by
  constructor
  · intro s
    refine ⟨?_, List.sorted_insertionSort seqLe s.entryPairs,
      List.perm_insertionSort seqLe s.entryPairs, rfl⟩
    rw [LogSummary.build_ordered_tail, List.length_map, LogSummary.orderedPairs,
      (List.perm_insertionSort seqLe s.entryPairs).length_eq,
      LogSummary.entryPairs]
    simp only [List.length_flatten, List.map_map]
    rfl
  · intro h
    rfl

theorem ofVal_val (p : clog_type) : clog_type.ofVal p.val = some p := by
  cases p <;> rfl

theorem readList_map_str (xs : List String) (rest : List Tok) :
    readList readStr xs.length (xs.map Tok.str ++ rest) = some (xs, rest) := by
  induction xs with
  | nil => rfl
  | cons a t ih => simp [readList, readStr, ih]

theorem readAddrs_two (xs : List String) (r : List Tok) :
    readAddrs 2 (Tok.nat xs.length :: (xs.map Tok.str ++ r)) = some (xs, r) :=
  readList_map_str xs r

theorem decodeRest_tokens (nm : String) (ty : Nat) (nu : Int)
    (addrs : List String) (sec nsec sq : Nat) (prio : clog_type)
    (m ch : String) (rest : List Tok) :
    decodeRest nm ty nu addrs (Tok.nat sec :: Tok.nat nsec :: Tok.nat sq ::
        Tok.int prio.val :: Tok.str m :: Tok.str ch :: rest) =
      some (⟨nm, ⟨ty, nu⟩, addrs, ⟨sec, nsec⟩, sq, prio, m, ch⟩, rest) := by
  cases prio <;> rfl

theorem LogEntry.decode_tokens_v2 (nm : String) (ty : Nat) (nu : Int)
    (addrs : List String) (sec nsec sq : Nat) (prio : clog_type)
    (m ch : String) (rest : List Tok) :
    LogEntry.decode (Tok.nat 2 :: Tok.str nm :: Tok.nat ty :: Tok.int nu ::
        Tok.nat addrs.length :: (addrs.map Tok.str ++
          (Tok.nat sec :: Tok.nat nsec :: Tok.nat sq ::
            Tok.int prio.val :: Tok.str m :: Tok.str ch :: rest))) =
      some (⟨nm, ⟨ty, nu⟩, addrs, ⟨sec, nsec⟩, sq, prio, m, ch⟩, rest) := by
  have h1 : LogEntry.decode (Tok.nat 2 :: Tok.str nm :: Tok.nat ty ::
      Tok.int nu :: Tok.nat addrs.length :: (addrs.map Tok.str ++
        (Tok.nat sec :: Tok.nat nsec :: Tok.nat sq ::
          Tok.int prio.val :: Tok.str m :: Tok.str ch :: rest))) =
      match readAddrs 2 (Tok.nat addrs.length :: (addrs.map Tok.str ++
        (Tok.nat sec :: Tok.nat nsec :: Tok.nat sq ::
          Tok.int prio.val :: Tok.str m :: Tok.str ch :: rest))) with
      | some (a, ts) => decodeRest nm ty nu a ts
      | none => none := rfl
  rw [h1, readAddrs_two]
  exact decodeRest_tokens nm ty nu addrs sec nsec sq prio m ch rest

theorem LogEntry.decode_tokens_v1 (nm : String) (ty : Nat) (nu : Int)
    (sec nsec sq : Nat) (prio : clog_type) (m ch : String) (rest : List Tok) :
    LogEntry.decode (Tok.nat 1 :: Tok.str nm :: Tok.nat ty :: Tok.int nu ::
        Tok.nat sec :: Tok.nat nsec :: Tok.nat sq ::
          Tok.int prio.val :: Tok.str m :: Tok.str ch :: rest) =
      some (⟨nm, ⟨ty, nu⟩, [], ⟨sec, nsec⟩, sq, prio, m, ch⟩, rest) := by
  cases prio <;> rfl

theorem entry_decode_encode (e : LogEntry) (f : Nat) (rest : List Tok) :
    LogEntry.decode (e.encode f ++ rest) = some (fillEntry f e, rest) := by
  cases hb : hasFeature f FEATURE_ADDRVEC with
  | true =>
    have henc : e.encode f ++ rest =
        Tok.nat 2 :: Tok.str e.name :: Tok.nat e.rank.type ::
          Tok.int e.rank.num :: Tok.nat e.addrs.length ::
            (e.addrs.map Tok.str ++
              (Tok.nat e.stamp.sec :: Tok.nat e.stamp.nsec :: Tok.nat e.seq ::
                Tok.int e.prio.val :: Tok.str e.msg ::
                  Tok.str e.channel :: rest)) := by
      simp [LogEntry.encode, hb]
    rw [henc, LogEntry.decode_tokens_v2]
    simp [fillEntry, hb]
  | false =>
    have henc : e.encode f ++ rest =
        Tok.nat 1 :: Tok.str e.name :: Tok.nat e.rank.type ::
          Tok.int e.rank.num :: Tok.nat e.stamp.sec :: Tok.nat e.stamp.nsec ::
            Tok.nat e.seq :: Tok.int e.prio.val :: Tok.str e.msg ::
              Tok.str e.channel :: rest := by
      simp [LogEntry.encode, hb]
    rw [henc, LogEntry.decode_tokens_v1]
    simp [fillEntry, hb]

theorem readPair_encode (f : Nat) (p : Nat × LogEntry) (rest : List Tok) :
    readPair (Tok.nat p.1 :: (p.2.encode f ++ rest)) =
      some ((p.1, fillEntry f p.2), rest) := by
  simp [readPair, readNat, entry_decode_encode]

theorem readList_pairs (f : Nat) (l : List (Nat × LogEntry)) (rest : List Tok) :
    readList readPair l.length
        ((l.map (fun p => Tok.nat p.1 :: p.2.encode f)).flatten ++ rest) =
      some (l.map (fun p => (p.1, fillEntry f p.2)), rest) := by
  induction l with
  | nil => rfl
  | cons p t ih =>
    simp [readList, List.flatten_cons, List.append_assoc, readPair_encode, ih]

theorem readChannel_encode (f : Nat) (ci : String × List (Nat × LogEntry))
    (rest : List Tok) :
    readChannel (encodeChannel f ci ++ rest) = some (fillChannel f ci, rest) := by
  have h1 : readChannel (encodeChannel f ci ++ rest) =
      match readList readPair ci.2.length
          ((ci.2.map (fun p => Tok.nat p.1 :: p.2.encode f)).flatten ++ rest) with
      | some (l, ts) => some ((ci.1, l), ts)
      | none => none := rfl
  rw [h1, readList_pairs]
  rfl

theorem readList_channels (f : Nat) (m : ChannelMap) (rest : List Tok) :
    readList readChannel m.length
        ((m.map (encodeChannel f)).flatten ++ rest) = some (fillTail f m, rest) := by
  induction m with
  | nil => rfl
  | cons ci t ih =>
    simp [readList, List.flatten_cons, List.append_assoc, readChannel_encode,
      ih, fillTail]

theorem summary_decode_encode (h : entity_name_t → Nat) (s : LogSummary)
    (f : Nat) (rest : List Tok) :
    LogSummary.decode h (s.encode f ++ rest) =
      some ({ version := s.version,
              tail_by_channel := fillTail f s.tail_by_channel,
              seq := s.seq,
              keys := rebuildKeys h (fillTail f s.tail_by_channel) }, rest) := by
  have h1 : LogSummary.decode h (s.encode f ++ rest) =
      match readList readChannel s.tail_by_channel.length
          ((s.tail_by_channel.map (encodeChannel f)).flatten ++ rest) with
      | some (m, ts) =>
        some ({ version := s.version, tail_by_channel := m, seq := s.seq,
                keys := rebuildKeys h m }, ts)
      | none => none := rfl
  rw [h1, readList_channels]

theorem key_decode_encode (h : entity_name_t → Nat)
    (w : entity_name_t) (t : utime_t) (s : Nat) (rest : List Tok) :
    LogEntryKey.decode h ((LogEntryKey.mk3 h w t s).encode ++ rest) =
      some (LogEntryKey.mk3 h w t s, rest) := rfl

theorem ukCount_foldInsert (h : entity_name_t → Nat)
    (l : List (Nat × LogEntry)) (ks0 : List LogEntryKey) (k : LogEntryKey) :
    ukCount (l.foldl (fun ks p => ukInsert ks (p.2.key h)) ks0) k =
      (l.any (fun p => keyBeq (p.2.key h) k) || ukCount ks0 k) := by
  induction l generalizing ks0 with
  | nil => simp
  | cons p t ih =>
    simp only [List.foldl_cons, List.any_cons, ih, ukCount_ukInsert]
    rw [Bool.or_left_comm, Bool.or_assoc]

theorem ukCount_rebuildKeys (h : entity_name_t → Nat) (m : ChannelMap)
    (k : LogEntryKey) :
    ukCount (rebuildKeys h m) k =
      (m.map (fun ci => ci.2)).flatten.any (fun p => keyBeq (p.2.key h) k) := by
  rw [rebuildKeys]
  suffices hgen : ∀ ks0 : List LogEntryKey,
      ukCount (m.foldl (fun ks ci =>
        ci.2.foldl (fun ks p => ukInsert ks (p.2.key h)) ks) ks0) k =
      ((m.map (fun ci => ci.2)).flatten.any (fun p => keyBeq (p.2.key h) k) ||
        ukCount ks0 k) by
    have := hgen []
    simpa [ukCount] using this
  induction m with
  | nil => intro ks0; simp
  | cons ci t ih =>
    intro ks0
    simp only [List.foldl_cons, ih, ukCount_foldInsert, List.map_cons,
      List.flatten_cons, List.any_append]
    rw [Bool.or_left_comm, Bool.or_assoc]

/-- A summary whose dedup index was rebuilt from its records satisfies the
exact-mirror invariant. -/
theorem decoded_keysExact (h : entity_name_t → Nat) (m : ChannelMap)
    (v sq : Nat) :
    ({ version := v, tail_by_channel := m, seq := sq,
       keys := rebuildKeys h m } : LogSummary).KeysExact h := by
  intro k
  exact ukCount_rebuildKeys h m k

/-- C9: for every canonical fixture of Identity, Record and Summary, and
every capability bitmask, decoding the encoding yields the fixture back
(exactly for Identities; up to the documented default-filling of the
omitted address vector for Records); a decoded Summary carries the
original `version`, `global_seq` and (default-filled) channels, and its
`keys` set is rebuilt from the decoded records, so the exact-mirror
invariant holds after decode. -/
theorem roundtrip_fixtures (h : entity_name_t → Nat) (f : Nat) :
    (∀ k ∈ LogEntryKey.generate_test_instances h,
      LogEntryKey.decode h k.encode = some (k, [])) ∧
    (∀ e ∈ LogEntry.generate_test_instances,
      LogEntry.decode (e.encode f) = some (fillEntry f e, [])) ∧
    (∀ s ∈ LogSummary.generate_test_instances h,
      ∃ s' : LogSummary,
        LogSummary.decode h (s.encode f) = some (s', []) ∧
        s'.version = s.version ∧ s'.seq = s.seq ∧
        s'.tail_by_channel = fillTail f s.tail_by_channel ∧
        s'.KeysExact h) := by
  refine ⟨?_, ?_, ?_⟩
  · intro k hk
    simp only [LogEntryKey.generate_test_instances, List.mem_cons,
      List.mem_singleton, List.not_mem_nil, or_false] at hk
    rcases hk with rfl | rfl
    · simpa using key_decode_encode h ⟨0, 0⟩ ⟨0, 0⟩ 0 []
    · simpa using key_decode_encode h ⟨4, 1⟩ ⟨1, 2⟩ 3 []
  · intro e he
    simp only [LogEntry.generate_test_instances, List.mem_cons,
      List.mem_singleton, List.not_mem_nil, or_false] at he
    rcases he with rfl | rfl
    · simpa using entry_decode_encode _ f []
    · simpa using entry_decode_encode _ f []
  · intro s hs
    simp only [LogSummary.generate_test_instances, List.mem_cons,
      List.mem_singleton, List.not_mem_nil, or_false] at hs
    rcases hs with rfl | rfl
    · have hd := summary_decode_encode h LogSummary.empty f []
      rw [List.append_nil] at hd
      exact ⟨_, hd, rfl, rfl, rfl, decoded_keysExact h _ _ _⟩
    · have hd := summary_decode_encode h
        ((LogSummary.empty.add h entX).add h entY) f []
      rw [List.append_nil] at hd
      exact ⟨_, hd, rfl, rfl, rfl, decoded_keysExact h _ _ _⟩

theorem roundtrip_witness :
    (LogEntryKey.decode h0 (LogEntryKey.mk3 h0 ⟨0, 0⟩ ⟨0, 0⟩ 0).encode =
      some (LogEntryKey.mk3 h0 ⟨0, 0⟩ ⟨0, 0⟩ 0, [])) ∧
    (LogEntry.decode
        ((⟨"osd.0", ⟨4, 0⟩, ["v2:127.0.0.1:6800"], ⟨12345, 678⟩, 42,
          .CLOG_WARN, "example", "cluster"⟩ : LogEntry).encode 1) =
      some (fillEntry 1 ⟨"osd.0", ⟨4, 0⟩, ["v2:127.0.0.1:6800"], ⟨12345, 678⟩,
        42, .CLOG_WARN, "example", "cluster"⟩, [])) ∧
    (∃ s' : LogSummary,
      LogSummary.decode h0 (LogSummary.empty.encode 1) = some (s', []) ∧
      s'.version = LogSummary.empty.version ∧ s'.seq = LogSummary.empty.seq ∧
      s'.tail_by_channel = fillTail 1 LogSummary.empty.tail_by_channel ∧
      s'.KeysExact h0) :=
  ⟨(roundtrip_fixtures h0 1).1 _ (by decide),
    (roundtrip_fixtures h0 1).2.1 _ (by decide),
    (roundtrip_fixtures h0 1).2.2 LogSummary.empty (by decide)⟩
